import Mathlib

/-
Verification of the koala experiment drivers:
  experiments/tfi_ite_peps.py  (Trotterized imaginary-time evolution on a PEPS grid)
  experiments/rqc_statevector.py  (random quantum circuit generation)

The Python sources are embedded shallowly:
  - the edge enumeration and the operator-construction bookkeeping are pure
    list/fold programs, translated directly;
  - external collaborators (the tensorbackends SVD, the koala.peps.sites
    contraction and bond-reduction routines, scipy matrix exponentials, numpy
    randomness) are not part of the sources; where a claim depends on them they
    are modelled from the specification, with a note on each such definition;
  - machine floats are modelled by rationals; randomness by explicit oracles.
-/

/-! ## Lattice coordinates and edge enumeration (tfi_ite_peps.py) -/

/-- Lattice coordinate: a (row, col) pair, 0-indexed. -/
abbrev Coord := ℕ × ℕ

/-- Row-major enumeration of the index grid, embedding numpy ndindex(m, n). -/
def ndindex (m n : ℕ) : List (ℕ × ℕ) :=
  (List.range m).flatMap (fun i => (List.range n).map (fun j => (i, j)))

/-- Embeds horizontal_links(nrows, ncols): all edges ((i,j),(i,j+1)) in
ndindex(nrows, ncols-1) order. -/
def horizontal_links (nrows ncols : ℕ) : List (Coord × Coord) :=
  (ndindex nrows (ncols - 1)).map (fun p => ((p.1, p.2), (p.1, p.2 + 1)))

/-- Embeds vertical_links(nrows, ncols): all edges ((i,j),(i+1,j)) in
ndindex(nrows-1, ncols) order. -/
def vertical_links (nrows ncols : ℕ) : List (Coord × Coord) :=
  (ndindex (nrows - 1) ncols).map (fun p => ((p.1, p.2), (p.1 + 1, p.2)))

lemma ndindex_zero (m : ℕ) : ndindex m 0 = [] := by
  simp [ndindex]

lemma ndindex_succ (m n : ℕ) :
    ndindex (m + 1) n = ndindex m n ++ (List.range n).map (fun j => (m, j)) := by
  simp [ndindex, List.range_succ]

lemma mem_ndindex (m n : ℕ) (p : ℕ × ℕ) : p ∈ ndindex m n ↔ p.1 < m ∧ p.2 < n := by
  cases p with
  | mk i j => simp [ndindex]

/-! ## Operator construction (build_tfi_trottered_step_operators)

The source builds, for every horizontal edge, the pair of two-site gate factors,
contracting the exponentiated single-site (field) operator into a factor when the
corresponding site has not been touched yet; vertical edges get the plain pair.
The tensor values of the factors are irrelevant to the bookkeeping claims, so the
construction is embedded generically over the type of operator tensors `Op`, with
`onez f` standing for sites.contract_z(one_site, f). -/

section BuildGeneric

variable {Op : Type}

/-- One iteration of the horizontal-edge loop of
build_tfi_trottered_step_operators: conditionally contract the single-site
operator into each factor (tracking the touched-site list) and append the
resulting keyed factor pair. -/
def hEdgeStep (hpair : Op × Op) (onez : Op → Op)
    (st : List ((Coord × Coord) × (Op × Op)) × List Coord) (p : ℕ × ℕ) :
    List ((Coord × Coord) × (Op × Op)) × List Coord :=
  let a : Coord := (p.1, p.2)
  let b : Coord := (p.1, p.2 + 1)
  let opa := if a ∈ st.2 then hpair.1 else onez hpair.1
  let t1 := if a ∈ st.2 then st.2 else a :: st.2
  let opb := if b ∈ t1 then hpair.2 else onez hpair.2
  let t2 := if b ∈ t1 then t1 else b :: t1
  (st.1 ++ [((a, b), (opa, opb))], t2)

/-- Horizontal-edge half of build_tfi_trottered_step_operators: the keyed factor
pairs in insertion order, together with the final touched-site list. -/
def build_tfi_h (hpair : Op × Op) (onez : Op → Op) (nrows ncols : ℕ) :
    List ((Coord × Coord) × (Op × Op)) × List Coord :=
  (ndindex nrows (ncols - 1)).foldl (hEdgeStep hpair onez) ([], [])

/-- Vertical-edge half of build_tfi_trottered_step_operators: every vertical edge
is keyed to the unmodified vertical factor pair, in ndindex order. -/
def build_tfi_v (vpair : Op × Op) (nrows ncols : ℕ) :
    List ((Coord × Coord) × (Op × Op)) :=
  (ndindex (nrows - 1) ncols).map (fun p => (((p.1, p.2), (p.1 + 1, p.2)), vpair))

/-- Embeds build_tfi_trottered_step_operators: the pair of keyed operator maps
(horizontal, vertical), each an insertion-ordered association list. -/
def build_tfi_trottered_step_operators (hpair vpair : Op × Op) (onez : Op → Op)
    (nrows ncols : ℕ) :
    List ((Coord × Coord) × (Op × Op)) × List ((Coord × Coord) × (Op × Op)) :=
  ((build_tfi_h hpair onez nrows ncols).1, build_tfi_v vpair nrows ncols)

/-- Closed form of the factor pair stored for the horizontal edge starting at
column j: the first factor carries the single-site operator only at j = 0, the
second factor always does. -/
def hFactorFor (hpair : Op × Op) (onez : Op → Op) (j : ℕ) : Op × Op :=
  (if j = 0 then onez hpair.1 else hpair.1, onez hpair.2)

lemma hEdgeStep_row (hpair : Op × Op) (onez : Op → Op) (i m : ℕ)
    (L0 : List ((Coord × Coord) × (Op × Op))) (T0 : List Coord)
    (hfree : ∀ j : ℕ, ((i, j) : Coord) ∉ T0) :
    ∃ T : List Coord,
      List.foldl (hEdgeStep hpair onez) (L0, T0) ((List.range m).map (fun j => (i, j))) =
        (L0 ++ ((List.range m).map (fun j => ((i : ℕ), j))).map
          (fun p => (((p.1, p.2), (p.1, p.2 + 1)), hFactorFor hpair onez p.2)), T) ∧
      ∀ c : Coord, c ∈ T ↔ c ∈ T0 ∨ (c.1 = i ∧ c.2 ≤ m ∧ 1 ≤ m) := by
  induction m with
  | zero =>
    refine ⟨T0, by simp, fun c => ?_⟩
    simp
  | succ k ih =>
    rcases k with _ | k0
    · -- first edge of the row: both sites are fresh
      refine ⟨(i, 1) :: (i, 0) :: T0, ?_, fun c => ?_⟩
      · have h0 : ((i, 0) : Coord) ∉ T0 := hfree 0
        have h1 : ((i, 1) : Coord) ∉ ((i, 0) :: T0 : List Coord) := by
          intro hmem
          rcases List.mem_cons.mp hmem with h | h
          · exact absurd (congrArg Prod.snd h) (by simp)
          · exact hfree 1 h
        have hr1 : List.range 1 = [0] := rfl
        simp [hr1, hEdgeStep, hFactorFor, h0, h1]
      · constructor
        · intro hc
          rcases List.mem_cons.mp hc with h | h
          · subst h; right; simp
          · rcases List.mem_cons.mp h with h2 | h2
            · subst h2; right; simp
            · exact Or.inl h2
        · intro hc
          rcases hc with h | ⟨h1, h2, _⟩
          · exact List.mem_cons_of_mem _ (List.mem_cons_of_mem _ h)
          · have hc2 : c.2 = 0 ∨ c.2 = 1 := by omega
            rcases hc2 with h3 | h3
            · have : c = ((i, 0) : Coord) := by
                cases c; simp_all
              subst this; simp
            · have : c = ((i, 1) : Coord) := by
                cases c; simp_all
              subst this; simp
    · -- subsequent edge (i, k0+1): the first site was touched by the previous edge
      obtain ⟨T, hfold, hmem⟩ := ih
      have hrange : (List.range (k0 + 2)).map (fun j => ((i : ℕ), j)) =
          (List.range (k0 + 1)).map (fun j => ((i : ℕ), j)) ++ [(i, k0 + 1)] := by
        rw [List.range_succ, List.map_append]
        simp
      have haT : ((i, k0 + 1) : Coord) ∈ T := by
        rw [hmem]; right; simp
      have hbT : ((i, k0 + 2) : Coord) ∉ T := by
        rw [hmem]
        rintro (h | ⟨h1, h2, h3⟩)
        · exact hfree (k0 + 2) h
        · omega
      refine ⟨(i, k0 + 2) :: T, ?_, fun c => ?_⟩
      · rw [hrange, List.foldl_append, hfold]
        rw [List.map_append]
        simp only [List.foldl_cons, List.foldl_nil]
        simp [hEdgeStep, hFactorFor, haT, hbT, List.append_assoc]
      · constructor
        · intro hc
          rcases List.mem_cons.mp hc with h | h
          · subst h; right; simp
          · rcases (hmem c).mp h with h2 | ⟨h2, h3, h4⟩
            · exact Or.inl h2
            · right; exact ⟨h2, by omega, by omega⟩
        · intro hc
          rcases hc with h | ⟨h1, h2, _⟩
          · exact List.mem_cons_of_mem _ ((hmem c).mpr (Or.inl h))
          · by_cases hc2 : c.2 ≤ k0 + 1
            · exact List.mem_cons_of_mem _ ((hmem c).mpr (Or.inr ⟨h1, hc2, by omega⟩))
            · have : c = ((i, k0 + 2) : Coord) := by
                cases c; simp_all; omega
              subst this; simp

lemma build_tfi_h_fold (hpair : Op × Op) (onez : Op → Op) (R m : ℕ) :
    ∃ T : List Coord,
      (ndindex R m).foldl (hEdgeStep hpair onez) ([], []) =
        ((ndindex R m).map
          (fun p => (((p.1, p.2), (p.1, p.2 + 1)), hFactorFor hpair onez p.2)), T) ∧
      ∀ c : Coord, c ∈ T ↔ c.1 < R ∧ c.2 ≤ m ∧ 1 ≤ m := by
  induction R with
  | zero =>
    refine ⟨[], by simp [ndindex], fun c => ?_⟩
    simp
  | succ r ih =>
    obtain ⟨T, hfold, hmem⟩ := ih
    have hfree : ∀ j : ℕ, ((r, j) : Coord) ∉ T := by
      intro j hc
      have := (hmem (r, j)).mp hc
      omega
    obtain ⟨T2, hfold2, hmem2⟩ := hEdgeStep_row hpair onez r m
      ((ndindex r m).map
        (fun p => (((p.1, p.2), (p.1, p.2 + 1)), hFactorFor hpair onez p.2))) T hfree
    refine ⟨T2, ?_, fun c => ?_⟩
    · rw [ndindex_succ, List.foldl_append, hfold, hfold2, List.map_append]
    · rw [hmem2, hmem]
      constructor
      · rintro (⟨h1, h2, h3⟩ | ⟨h1, h2, h3⟩)
        · exact ⟨by omega, h2, h3⟩
        · exact ⟨by omega, h2, h3⟩
      · rintro ⟨h1, h2, h3⟩
        by_cases hcr : c.1 < r
        · exact Or.inl ⟨hcr, h2, h3⟩
        · exact Or.inr ⟨by omega, h2, h3⟩

theorem build_tfi_h_closed (hpair : Op × Op) (onez : Op → Op) (R C : ℕ) :
    (build_tfi_h hpair onez R C).1 =
      (ndindex R (C - 1)).map
        (fun p => (((p.1, p.2), (p.1, p.2 + 1)), hFactorFor hpair onez p.2)) ∧
    ∀ c : Coord, c ∈ (build_tfi_h hpair onez R C).2 ↔ c.1 < R ∧ c.2 < C ∧ 2 ≤ C := by
  obtain ⟨T, hfold, hmem⟩ := build_tfi_h_fold hpair onez R (C - 1)
  rw [build_tfi_h, hfold]
  refine ⟨rfl, fun c => ?_⟩
  rw [hmem]
  omega

end BuildGeneric

/-! ## Flag-level instantiation of the operator construction

For the bookkeeping claims only the presence of the contracted single-site
operator matters, so the operator type is instantiated with Bool: a factor is
true exactly when sites.contract_z(one_site, factor) has been applied to it. -/

/-- Horizontal factor map of the builder at flag level, with the touched-site
list. -/
def hFlagOps (R C : ℕ) : List ((Coord × Coord) × (Bool × Bool)) × List Coord :=
  build_tfi_h ((false : Bool), (false : Bool)) (fun _ => true) R C

/-- Vertical factor map of the builder at flag level. -/
def vFlagOps (R C : ℕ) : List ((Coord × Coord) × (Bool × Bool)) :=
  build_tfi_v ((false : Bool), (false : Bool)) R C

/-- Number of stored factors in a horizontal factor map that carry the
single-site operator contracted for target coordinate c (first components of
edges paired with the first flag, second with the second). -/
def onesite_count (l : List ((Coord × Coord) × (Bool × Bool))) (c : Coord) : ℕ :=
  l.countP (fun e => decide (e.1.1 = c ∧ e.2.1 = true)) +
  l.countP (fun e => decide (e.1.2 = c ∧ e.2.2 = true))

lemma countP_ext {α : Type} (l : List α) {p q : α → Bool} (h : ∀ a, p a = q a) :
    l.countP p = l.countP q := by
  have hpq : p = q := funext h
  rw [hpq]

lemma countP_range_single (t m : ℕ) :
    (List.range m).countP (fun j => decide (j = t)) = if t < m then 1 else 0 := by
  induction m with
  | zero => simp
  | succ k ih =>
    rw [List.range_succ, List.countP_append, ih]
    by_cases h : k = t
    · subst h
      simp [List.countP_cons]
    · have hc : List.countP (fun j => decide (j = t)) [k] = 0 := by
        simp [h]
      rw [hc]
      by_cases htk : t < k
      · have h2 : t < k + 1 := by omega
        simp [htk, h2]
      · have h2 : ¬ t < k + 1 := by omega
        simp [htk, h2]

lemma countP_ndindex_single (R m a b : ℕ) :
    (ndindex R m).countP (fun p => decide (p = ((a : ℕ), (b : ℕ)))) =
      if a < R ∧ b < m then 1 else 0 := by
  induction R with
  | zero => simp [ndindex]
  | succ r ih =>
    rw [ndindex_succ, List.countP_append, ih, List.countP_map]
    by_cases hra : r = a
    · subst hra
      have hcomp : ((fun p => decide (p = ((r : ℕ), (b : ℕ)))) ∘ fun j => ((r : ℕ), j)) =
          fun j => decide (j = b) := by
        funext j
        simp [Prod.ext_iff]
      rw [hcomp, countP_range_single]
      split_ifs <;> omega
    · have hcomp : ((fun p => decide (p = ((a : ℕ), (b : ℕ)))) ∘ fun j => ((r : ℕ), j)) =
          fun _ => false := by
        funext j
        simp [Prod.ext_iff, hra]
      rw [hcomp]
      have hz : List.countP (fun _ => false) (List.range m) = 0 := by
        simp [List.countP_eq_zero]
      rw [hz]
      split_ifs <;> omega

lemma onesite_count_closed (R C : ℕ) (c : Coord) :
    onesite_count (hFlagOps R C).1 c =
      (if c.1 < R ∧ c.2 = 0 ∧ 2 ≤ C then 1 else 0) +
      (if c.1 < R ∧ 1 ≤ c.2 ∧ c.2 < C then 1 else 0) := by
  obtain ⟨hent, -⟩ :=
    build_tfi_h_closed ((false : Bool), (false : Bool)) (fun _ => true) R C
  rcases c with ⟨r, s⟩
  rw [onesite_count, hFlagOps, hent, List.countP_map, List.countP_map]
  have hA : ((fun (e : (Coord × Coord) × (Bool × Bool)) =>
        decide (e.1.1 = ((r : ℕ), s) ∧ e.2.1 = true)) ∘
        (fun p => (((p.1, p.2), (p.1, p.2 + 1)),
          hFactorFor ((false : Bool), (false : Bool)) (fun _ => true) p.2))) =
      fun (p : ℕ × ℕ) => decide (p = ((r : ℕ), s) ∧ s = 0) := by
    funext p
    rcases p with ⟨p1, p2⟩
    by_cases hp : p2 = 0
    · subst hp
      simp only [Function.comp_apply, hFactorFor]
      simp [Prod.ext_iff]
      tauto
    · simp only [Function.comp_apply, hFactorFor]
      simp [Prod.ext_iff, hp]
      intro h1 h2
      omega
  have hB : ((fun (e : (Coord × Coord) × (Bool × Bool)) =>
        decide (e.1.2 = ((r : ℕ), s) ∧ e.2.2 = true)) ∘
        (fun p => (((p.1, p.2), (p.1, p.2 + 1)),
          hFactorFor ((false : Bool), (false : Bool)) (fun _ => true) p.2))) =
      fun (p : ℕ × ℕ) => decide (p = ((r : ℕ), s - 1) ∧ 1 ≤ s) := by
    funext p
    rcases p with ⟨p1, p2⟩
    simp only [Function.comp_apply, hFactorFor]
    rw [decide_eq_decide]
    constructor
    · rintro ⟨h, -⟩
      have h1 : p1 = r := congrArg Prod.fst h
      have h2 : p2 + 1 = s := congrArg Prod.snd h
      subst h1
      refine ⟨?_, by omega⟩
      rw [Prod.mk.injEq]
      exact ⟨rfl, by omega⟩
    · rintro ⟨h, hs1⟩
      have h1 : p1 = r := congrArg Prod.fst h
      have h2 : p2 = s - 1 := congrArg Prod.snd h
      subst h1
      refine ⟨?_, by trivial⟩
      rw [Prod.mk.injEq]
      exact ⟨rfl, by omega⟩
  rw [hA, hB]
  by_cases hs : s = 0
  · subst hs
    have hA2 : (fun (p : ℕ × ℕ) => decide (p = ((r : ℕ), (0 : ℕ)) ∧ (0 : ℕ) = 0)) =
        fun p => decide (p = ((r : ℕ), (0 : ℕ))) := by
      funext p
      simp
    have hB2 : (fun (p : ℕ × ℕ) => decide (p = ((r : ℕ), 0 - 1) ∧ 1 ≤ (0 : ℕ))) =
        fun _ => false := by
      funext p
      simp
    rw [hA2, hB2, countP_ndindex_single]
    have hz : List.countP (fun _ => false) (ndindex R (C - 1)) = 0 := by
      simp [List.countP_eq_zero]
    rw [hz]
    split_ifs <;> omega
  · have hA2 : (fun (p : ℕ × ℕ) => decide (p = ((r : ℕ), s) ∧ s = 0)) =
        fun _ => false := by
      funext p
      simp [hs]
    have hB2 : (fun (p : ℕ × ℕ) => decide (p = ((r : ℕ), s - 1) ∧ 1 ≤ s)) =
        fun p => decide (p = ((r : ℕ), s - 1)) := by
      funext p
      simp only [decide_eq_decide]
      constructor
      · exact And.left
      · intro h
        exact ⟨h, by omega⟩
    rw [hA2, hB2, countP_ndindex_single]
    have hz : List.countP (fun _ => false) (ndindex R (C - 1)) = 0 := by
      simp [List.countP_eq_zero]
    rw [hz]
    split_ifs <;> omega

/-! ## Numeric model of the two-site gate factorization (ℚ)

The two-site operator exp(tau*J*(Z⊗Z)) is diagonal in the computational basis;
grouped as a 4×4 matrix over row group (out1, out2) and column group (in1, in2)
it equals diag(d, 1/d, 1/d, d) with d = exp(tau*J) > 0.  The model takes d as a
positive rational parameter since the matrix exponential is computed externally
by scipy. -/

/-- Modelled from the spec: exp_pauli_zz, the exponentiated two-site operator
sla.expm(PAULI_ZZ.reshape(4,4)*(J*tau)), as the diagonal 4×4 matrix
diag(d, d⁻¹, d⁻¹, d), parametrised by d = exp(tau*J). -/
def exp_pauli_zz (d : ℚ) : Fin 4 → Fin 4 → ℚ :=
  fun i j => if i = j then (if i = 0 ∨ i = 3 then d else d⁻¹) else 0

/-- Modelled from the spec: reconstruction contract of an einsvd factorization.
The backend svd(pattern, A) returns (U, S, V) with the singular values held
separately, so A[(x,y),(u,v)] = ∑ s, U[(x,y),s] * S[s] * V[(u,v),s]. -/
def einsvdRecon (U : Fin 4 → Fin 4 → ℚ) (s : Fin 4 → ℚ) (V : Fin 4 → Fin 4 → ℚ) :
    Fin 4 → Fin 4 → ℚ :=
  fun p q => ∑ t, U p t * s t * V q t

/-- Embeds horizontal_pair_site_operator, taking the einsvd output (U, s, V) as
arguments (the SVD itself is the backend's): the source squares the
singular-value vector (the line s = s ** 2) and scales each factor by it
elementwise along the auxiliary leg.  Only the (physical-pair, auxiliary) matrix
content is kept; the rank-6 leg reshapes in the einsum patterns do not change
any entry.  vertical_pair_site_operator computes the same entries with the
auxiliary leg in a different position. -/
def horizontal_pair_site_operator (U : Fin 4 → Fin 4 → ℚ) (s : Fin 4 → ℚ)
    (V : Fin 4 → Fin 4 → ℚ) : (Fin 4 → Fin 4 → ℚ) × (Fin 4 → Fin 4 → ℚ) :=
  (fun p t => U p t * (s t) ^ 2, fun q t => V q t * (s t) ^ 2)

/-- Contraction of the two stored gate factors over the auxiliary gate bond. -/
def contract_gate_bond (fa fb : Fin 4 → Fin 4 → ℚ) : Fin 4 → Fin 4 → ℚ :=
  fun p q => ∑ t, fa p t * fb q t

/-- Identity 4×4 matrix: the left and right einsvd factors of a diagonal matrix
with positive diagonal. -/
def idMat4 : Fin 4 → Fin 4 → ℚ := fun i j => if i = j then 1 else 0

/-- Singular values of exp_pauli_zz 2 (that is, tau*J = log 2). -/
def svalsZZ2 : Fin 4 → ℚ := fun i => if i = 0 ∨ i = 3 then (2 : ℚ) else 2⁻¹

/-! ## Grid state, bond updates and the simulation loop

apply_trottered_step_operators and run_peps act on the PEPS grid through the
koala collaborators peps.random, sites.contract_z, sites.reduce_y and
sites.reduce_x, which are not under src/; those are modelled from the spec.
The embedding additionally records a trace of the backend operations issued,
which is what the scheduling and configuration claims are about. -/

/-- Site tensor of the grid state: the four virtual bond dimensions (toward
north, east, south, west; boundary legs have dimension 1) and the flattened
entries.  The physical leg has fixed dimension 2 and is left implicit. -/
structure SiteT where
  dn : ℕ
  de : ℕ
  ds : ℕ
  dw : ℕ
  dat : ℕ → ℚ

/-- Gate-factor tensor: four virtual legs (the auxiliary gate bond sits on the
leg facing the partner site, all others have dimension 1) plus two physical
legs of dimension 2, left implicit. -/
structure OpT where
  dn : ℕ
  de : ℕ
  ds : ℕ
  dw : ℕ
  dat : ℕ → ℚ

/-- Modelled from the spec: sites.contract_z (koala.peps.sites, not under src/)
contracts the operator into the site tensor over the physical leg and merges
each operator virtual leg into the like-named site leg, so bond dimensions
multiply; the numerical entries are combined pointwise (abstracted). -/
def contract_z (t : SiteT) (o : OpT) : SiteT :=
  ⟨t.dn * o.dn, t.de * o.de, t.ds * o.ds, t.dw * o.dw, fun n => t.dat n * o.dat n⟩

/-- Modelled from the spec: sites.reduce_y (koala.peps.sites, not under src/)
truncates the shared horizontal bond (east leg of the first site, west leg of
the second) to the top maxrank singular triples of a joint SVD: the shared
bond dimension becomes min(current, maxrank) — a no-op when already within the
bound — and every other leg is unchanged; numerical entries abstracted. -/
def reduce_y (ta tb : SiteT) (maxrank : ℕ) : SiteT × SiteT :=
  (⟨ta.dn, min ta.de maxrank, ta.ds, ta.dw, ta.dat⟩,
   ⟨tb.dn, tb.de, tb.ds, min tb.dw maxrank, tb.dat⟩)

/-- Modelled from the spec: sites.reduce_x, the vertical-bond analogue of
reduce_y (south leg of the first site, north leg of the second). -/
def reduce_x (ta tb : SiteT) (maxrank : ℕ) : SiteT × SiteT :=
  (⟨ta.dn, ta.de, min ta.ds maxrank, ta.dw, ta.dat⟩,
   ⟨min tb.dn maxrank, tb.de, tb.ds, tb.dw, tb.dat⟩)

/-- Grid State: the site tensors indexed by coordinate. -/
def GridState := Coord → SiteT

/-- Assignment qstate.grid[c] = t. -/
def updateGrid (g : GridState) (c : Coord) (t : SiteT) : GridState :=
  fun x => if x = c then t else g x

/-- Embeds the horizontal loop body of apply_trottered_step_operators:
contract each factor into its site, then reduce the shared bond. -/
def bondUpdateH (g : GridState) (a b : Coord) (fa fb : OpT) (k : ℕ) : GridState :=
  let g1 := updateGrid g a (contract_z (g a) fa)
  let g2 := updateGrid g1 b (contract_z (g1 b) fb)
  let r := reduce_y (g2 a) (g2 b) k
  updateGrid (updateGrid g2 a r.1) b r.2

/-- Embeds the vertical loop body of apply_trottered_step_operators. -/
def bondUpdateV (g : GridState) (a b : Coord) (fa fb : OpT) (k : ℕ) : GridState :=
  let g1 := updateGrid g a (contract_z (g a) fa)
  let g2 := updateGrid g1 b (contract_z (g1 b) fb)
  let r := reduce_x (g2 a) (g2 b) k
  updateGrid (updateGrid g2 a r.1) b r.2

/-- Truncation mode passed to the bond-reduction routine. -/
inductive SvdKind
  | exact
  | implicitRandomized
deriving DecidableEq

/-- Backend operations observable in a run, in issue order. -/
inductive Ev
  | initRandom (nrow ncol maxrank : ℕ)
  | configError (field : String)
  | contractSite (c : Coord)
  | reduceY (a b : Coord) (kind : SvdKind) (maxrank : ℕ)
  | reduceX (a b : Coord) (kind : SvdKind) (maxrank : ℕ)
  | normalize
deriving DecidableEq

/-- Events of one horizontal bond update.  The truncation mode recorded is
ImplicitRandomizedSVD, mirroring option=ImplicitRandomizedSVD(maxrank) in the
source. -/
def hUpdEvs (a b : Coord) (k : ℕ) : List Ev :=
  [Ev.contractSite a, Ev.contractSite b, Ev.reduceY a b SvdKind.implicitRandomized k]

/-- Events of one vertical bond update (also ImplicitRandomizedSVD). -/
def vUpdEvs (a b : Coord) (k : ℕ) : List Ev :=
  [Ev.contractSite a, Ev.contractSite b, Ev.reduceX a b SvdKind.implicitRandomized k]

/-- Keyed operator map: insertion-ordered association list of factor pairs. -/
abbrev OpMap := List ((Coord × Coord) × (OpT × OpT))

/-- Embeds apply_trottered_step_operators: iterate the horizontal operator map
in insertion order, then the vertical one, returning the updated grid and the
trace of backend operations. -/
def apply_trottered_step_operators (g : GridState) (hoperators voperators : OpMap)
    (maxrank : ℕ) : GridState × List Ev :=
  let h := hoperators.foldl
    (fun st e => (bondUpdateH st.1 e.1.1 e.1.2 e.2.1 e.2.2 maxrank,
                  st.2 ++ hUpdEvs e.1.1 e.1.2 maxrank)) (g, [])
  let v := voperators.foldl
    (fun st e => (bondUpdateV st.1 e.1.1 e.1.2 e.2.1 e.2.2 maxrank,
                  st.2 ++ vUpdEvs e.1.1 e.1.2 maxrank)) (h.1, [])
  (v.1, h.2 ++ v.2)

/-- Trace of one Trotter sweep, as a function of the operator maps. -/
def step_trace (hoperators voperators : OpMap) (maxrank : ℕ) : List Ev :=
  hoperators.flatMap (fun e => hUpdEvs e.1.1 e.1.2 maxrank) ++
  voperators.flatMap (fun e => vUpdEvs e.1.1 e.1.2 maxrank)

lemma foldl_bondH_snd (k : ℕ) :
    ∀ (l : OpMap) (g : GridState) (acc : List Ev),
      (l.foldl (fun st e => (bondUpdateH st.1 e.1.1 e.1.2 e.2.1 e.2.2 k,
          st.2 ++ hUpdEvs e.1.1 e.1.2 k)) (g, acc)).2 =
        acc ++ l.flatMap (fun e => hUpdEvs e.1.1 e.1.2 k) := by
  intro l
  induction l with
  | nil => intro g acc; simp
  | cons x xs ih =>
    intro g acc
    simp only [List.foldl_cons, List.flatMap_cons]
    rw [ih, List.append_assoc]

lemma foldl_bondV_snd (k : ℕ) :
    ∀ (l : OpMap) (g : GridState) (acc : List Ev),
      (l.foldl (fun st e => (bondUpdateV st.1 e.1.1 e.1.2 e.2.1 e.2.2 k,
          st.2 ++ vUpdEvs e.1.1 e.1.2 k)) (g, acc)).2 =
        acc ++ l.flatMap (fun e => vUpdEvs e.1.1 e.1.2 k) := by
  intro l
  induction l with
  | nil => intro g acc; simp
  | cons x xs ih =>
    intro g acc
    simp only [List.foldl_cons, List.flatMap_cons]
    rw [ih, List.append_assoc]

lemma apply_trottered_step_operators_snd (g : GridState) (hops vops : OpMap) (k : ℕ) :
    (apply_trottered_step_operators g hops vops k).2 = step_trace hops vops k := by
  unfold apply_trottered_step_operators step_trace
  dsimp only
  rw [foldl_bondH_snd, foldl_bondV_snd]
  simp

/-- Modelled from the spec: peps.random(nrow, ncol, maxrank) (koala, not under
src/) creates the initial Grid State: boundary virtual legs have dimension 1,
interior legs are bounded by maxrank, and the entries come from the external
randomness, supplied as the oracle w. -/
def peps_random (nrow ncol maxrank : ℕ) (w : Coord → ℕ → ℚ) : GridState :=
  fun c =>
    ⟨if c.1 = 0 then 1 else maxrank,
     if c.2 = ncol - 1 then 1 else maxrank,
     if c.1 = nrow - 1 then 1 else maxrank,
     if c.2 = 0 then 1 else maxrank,
     w c⟩

/-- Loop body of run_peps: one Trotter sweep, followed by site normalization
when the 1-based step index is a multiple of normfreq. -/
def run_peps_step (hoperators voperators : OpMap) (normfreq maxrank : ℕ)
    (st : GridState × List Ev) (i : ℕ) : GridState × List Ev :=
  let s1 := apply_trottered_step_operators st.1 hoperators voperators maxrank
  let st1 := (s1.1, st.2 ++ s1.2)
  if (i + 1) % normfreq = 0 then (st1.1, st1.2 ++ [Ev.normalize]) else st1

/-- Embeds run_peps: create the random grid, then run `steps` Trotter sweeps.
The parameters backend, threshold and randomized_svd are accepted and ignored,
exactly as in the source (only ctf timing plumbing reads the backend name);
no parameter validation is performed. -/
def run_peps (hoperators voperators : OpMap) (nrow ncol steps normfreq : ℕ)
    (backendName : String) (threshold : ℚ) (maxrank : ℕ) (randomized_svd : Bool)
    (w : Coord → ℕ → ℚ) : GridState × List Ev :=
  let qstate0 := peps_random nrow ncol maxrank w
  (List.range steps).foldl (run_peps_step hoperators voperators normfreq maxrank)
    (qstate0, [Ev.initRandom nrow ncol maxrank])

lemma run_peps_step_snd (hops vops : OpMap) (nf k : ℕ) (st : GridState × List Ev) (i : ℕ) :
    (run_peps_step hops vops nf k st i).2 =
      st.2 ++ step_trace hops vops k ++
        (if (i + 1) % nf = 0 then [Ev.normalize] else []) := by
  by_cases hc : (i + 1) % nf = 0 <;>
    simp [run_peps_step, hc, apply_trottered_step_operators_snd]

lemma run_fold_trace (hops vops : OpMap) (nf k : ℕ) :
    ∀ (n : ℕ) (g : GridState) (acc : List Ev),
      ((List.range n).foldl (run_peps_step hops vops nf k) (g, acc)).2 =
        acc ++ (List.range n).flatMap
          (fun i => step_trace hops vops k ++
            if (i + 1) % nf = 0 then [Ev.normalize] else []) := by
  intro n
  induction n with
  | zero => intro g acc; simp
  | succ m ih =>
    intro g acc
    rw [List.range_succ, List.foldl_append]
    simp only [List.foldl_cons, List.foldl_nil]
    rcases hfp : (List.range m).foldl (run_peps_step hops vops nf k) (g, acc) with ⟨g2, acc2⟩
    have h2 := ih g acc
    rw [hfp] at h2
    simp only at h2
    rw [run_peps_step_snd]
    simp only [h2]
    rw [List.flatMap_append]
    simp [List.append_assoc]

/-- Closed form of the run_peps trace: the initial random creation followed,
for each step i, by one sweep block and a normalization exactly when
(i+1) % normfreq = 0. -/
lemma run_peps_trace (hops vops : OpMap) (nrow ncol steps nf : ℕ) (bk : String)
    (th : ℚ) (k : ℕ) (rs : Bool) (w : Coord → ℕ → ℚ) :
    (run_peps hops vops nrow ncol steps nf bk th k rs w).2 =
      Ev.initRandom nrow ncol k ::
        (List.range steps).flatMap
          (fun i => step_trace hops vops k ++
            if (i + 1) % nf = 0 then [Ev.normalize] else []) := by
  unfold run_peps
  rw [run_fold_trace]
  simp

/-- Recognizer for configuration-error events (never issued by the source). -/
def isConfigError : Ev → Bool
  | Ev.configError _ => true
  | _ => false

/-- Recognizer for bond-reduction events. -/
def isReduceEv : Ev → Bool
  | Ev.reduceY _ _ _ _ => true
  | Ev.reduceX _ _ _ _ => true
  | _ => false

/-- Recognizer for bond-reduction events performed with a deterministic exact
SVD. -/
def usesExactSvd : Ev → Bool
  | Ev.reduceY _ _ SvdKind.exact _ => true
  | Ev.reduceX _ _ SvdKind.exact _ => true
  | _ => false

lemma step_trace_shape (hops vops : OpMap) (k : ℕ) :
    ∀ e ∈ step_trace hops vops k,
      e ≠ Ev.normalize ∧ isConfigError e = false ∧ usesExactSvd e = false := by
  intro e he
  rcases List.mem_append.mp he with h1 | h1 <;>
    rcases List.mem_flatMap.mp h1 with ⟨x, -, hx⟩ <;>
    simp [hUpdEvs, vUpdEvs] at hx <;>
    rcases hx with h2 | h2 | h2 <;>
    subst h2 <;>
    simp [isConfigError, usesExactSvd]

/-! ## Random quantum circuit generation (rqc_statevector.py)

generate(nrow, ncol, nlayer, seed) draws one-qubit gate names through
np.random.RandomState(seed).choice over the names not equal to the qubit's
previous name; the randomness is modelled by an oracle of indices, a draw from
a nonempty candidate list taking the element at (oracle value mod length).
Every concrete seeded run corresponds to some oracle. -/

/-- One-qubit gate name pool of the generator. -/
def one_qubit_gate_names : List String := ["sqrtX", "sqrtY", "sqrtW"]

/-- Embeds the Gate namedtuple (name, parameters, qubits). -/
structure Gate where
  name : String
  parameters : List ℚ
  qubits : List ℕ
deriving DecidableEq

/-- Embeds as_qubit: row-major qubit index i * ncol + j. -/
def as_qubit (ncol i j : ℕ) : ℕ := i * ncol + j

/-- The four two-qubit pair groups built by generate: groups 0 and 1 hold the
vertical pairs from even and odd rows, groups 2 and 3 the horizontal pairs
from even and odd columns. -/
structure PairGroups where
  g0 : List (ℕ × ℕ)
  g1 : List (ℕ × ℕ)
  g2 : List (ℕ × ℕ)
  g3 : List (ℕ × ℕ)
deriving DecidableEq

/-- Embeds the pair-construction loop of generate. -/
def pairsOf (nrow ncol : ℕ) : PairGroups :=
  (ndindex nrow ncol).foldl
    (fun ps p =>
      let i := p.1
      let j := p.2
      let ps2 :=
        if i ≠ nrow - 1 then
          (if i % 2 = 0 then
            { ps with g0 := ps.g0 ++ [(as_qubit ncol i j, as_qubit ncol (i + 1) j)] }
          else
            { ps with g1 := ps.g1 ++ [(as_qubit ncol i j, as_qubit ncol (i + 1) j)] })
        else ps
      if j ≠ ncol - 1 then
        (if j % 2 = 0 then
          { ps2 with g2 := ps2.g2 ++ [(as_qubit ncol i j, as_qubit ncol i (j + 1))] }
        else
          { ps2 with g3 := ps2.g3 ++ [(as_qubit ncol i j, as_qubit ncol i (j + 1))] })
      else ps2)
    ⟨[], [], [], []⟩

/-- Indexing pairs[idx] into the four groups. -/
def selectPairs (ps : PairGroups) : ℕ → List (ℕ × ℕ)
  | 0 => ps.g0
  | 1 => ps.g1
  | 2 => ps.g2
  | _ => ps.g3

/-- The fixed group-selection pattern [0,1,2,3,2,3,0,1] indexed by layer mod 8. -/
def layer_pattern : List ℕ := [0, 1, 2, 3, 2, 3, 0, 1]

/-- Modelled from the spec: one draw of rand_state.choice(avail) (numpy, not
under src/) from the nonempty list of names not equal to the previous one; the
randomness is the oracle index r, the draw is avail[r % avail.length]. -/
def chooseName (prev : Option String) (r : ℕ) : String :=
  let avail := one_qubit_gate_names.filter (fun n => decide (some n ≠ prev))
  avail.getD (r % avail.length) "sqrtX"

/-- Embeds add_one_qubit_gates: one drawn gate per qubit in increasing qubit
order, threading the previous-gate array and the oracle counter. -/
def add_one_qubit_gates (o : ℕ → ℕ) (nq : ℕ) (st : (ℕ → Option String) × ℕ) :
    ((ℕ → Option String) × ℕ) × List Gate :=
  (List.range nq).foldl
    (fun acc q =>
      let nm := chooseName (acc.1.1 q) (o acc.1.2)
      ((Function.update acc.1.1 q (some nm), acc.1.2 + 1), acc.2 ++ [⟨nm, [], [q]⟩]))
    (st, [])

/-- Loop body of generate: one-qubit gates for every qubit, then the ISWAP
gates of the pattern-selected pair group. -/
def generate_step (o : ℕ → ℕ) (nq : ℕ) (ps : PairGroups)
    (acc : ((ℕ → Option String) × ℕ) × List (List Gate)) (i : ℕ) :
    ((ℕ → Option String) × ℕ) × List (List Gate) :=
  let r1 := add_one_qubit_gates o nq acc.1
  let layer := r1.2 ++ (selectPairs ps (layer_pattern.getD (i % 8) 0)).map
    (fun p => ⟨"ISWAP", [], [p.1, p.2]⟩)
  (r1.1, acc.2 ++ [layer])

/-- Embeds generate(nrow, ncol, nlayer, seed).gates: the layer list, with the
seeded numpy randomness supplied as the oracle o. -/
def generate (nrow ncol nlayer : ℕ) (o : ℕ → ℕ) : List (List Gate) :=
  ((List.range nlayer).foldl (generate_step o (nrow * ncol) (pairsOf nrow ncol))
    ((fun _ => none, 0), [])).2

/-- Closed form of the drawn one-qubit gate name for layer i, qubit q: layer 0
draws with no exclusion, layer i+1 excludes the layer-i name; the oracle
counter for (layer i, qubit q) is i * nq + q. -/
def namesAt (o : ℕ → ℕ) (nq : ℕ) : ℕ → ℕ → String
  | 0, q => chooseName none (o q)
  | (i + 1), q => chooseName (some (namesAt o nq i q)) (o ((i + 1) * nq + q))

/-- Closed form of the previous-gate array before layer i is generated. -/
def prevAt (o : ℕ → ℕ) (nq : ℕ) : ℕ → (ℕ → Option String)
  | 0 => fun _ => none
  | (i + 1) => fun q => if q < nq then some (namesAt o nq i q) else none

/-- Closed form of one generated layer. -/
def layerAt (o : ℕ → ℕ) (nq : ℕ) (ps : PairGroups) (i : ℕ) : List Gate :=
  (List.range nq).map (fun q => ⟨namesAt o nq i q, [], [q]⟩) ++
  (selectPairs ps (layer_pattern.getD (i % 8) 0)).map
    (fun p => ⟨"ISWAP", [], [p.1, p.2]⟩)

lemma map_eq_on {α β : Type} :
    ∀ (l : List α) (f g : α → β), (∀ a ∈ l, f a = g a) → l.map f = l.map g := by
  intro l
  induction l with
  | nil => intro f g h; simp
  | cons x xs ih =>
    intro f g h
    simp only [List.map_cons]
    rw [h x (by simp), ih f g (fun a ha => h a (by simp [ha]))]

lemma add_one_qubit_gates_closed (o : ℕ → ℕ) (nq : ℕ) (prev : ℕ → Option String) (t0 : ℕ) :
    add_one_qubit_gates o nq (prev, t0) =
      ((fun q => if q < nq then some (chooseName (prev q) (o (t0 + q))) else prev q, t0 + nq),
       (List.range nq).map (fun q => ⟨chooseName (prev q) (o (t0 + q)), [], [q]⟩)) := by
  unfold add_one_qubit_gates
  induction nq with
  | zero => simp
  | succ n ih =>
    rw [List.range_succ, List.foldl_append, ih]
    simp only [List.foldl_cons, List.foldl_nil]
    have hn : ¬ n < n := by omega
    simp only [hn, if_false]
    refine congrArg₂ Prod.mk (congrArg₂ Prod.mk ?_ (by omega)) ?_
    · funext q
      by_cases hq : q = n
      · subst hq
        simp [Function.update_apply, hn]
      · by_cases hq2 : q < n
        · have hq3 : q < n + 1 := by omega
          simp [Function.update_apply, hq, hq2, hq3]
        · have hq3 : ¬ q < n + 1 := by omega
          simp [Function.update_apply, hq, hq2, hq3]
    · rw [List.map_append]
      simp

lemma generate_fold (o : ℕ → ℕ) (nq : ℕ) (ps : PairGroups) :
    ∀ n : ℕ,
      (List.range n).foldl (generate_step o nq ps) ((fun _ => none, 0), []) =
        ((prevAt o nq n, n * nq), (List.range n).map (layerAt o nq ps)) := by
  intro n
  induction n with
  | zero => simp [prevAt]
  | succ m ih =>
    rw [List.range_succ, List.foldl_append, ih]
    simp only [List.foldl_cons, List.foldl_nil]
    unfold generate_step
    rw [add_one_qubit_gates_closed]
    have hnames : ∀ q : ℕ, q < nq →
        chooseName (prevAt o nq m q) (o (m * nq + q)) = namesAt o nq m q := by
      intro q hq
      cases m with
      | zero => simp [prevAt, namesAt]
      | succ m0 =>
        simp only [prevAt, hq, if_true]
        rfl
    refine congrArg₂ Prod.mk (congrArg₂ Prod.mk ?_ (by ring)) ?_
    · funext q
      cases m with
      | zero =>
        by_cases hq : q < nq <;> simp [prevAt, hq, hnames, namesAt]
      | succ m0 =>
        by_cases hq : q < nq
        · simp only [prevAt, hq, if_true]
          rfl
        · simp [prevAt, hq]
    · rw [List.map_append]
      simp only [List.map_cons, List.map_nil]
      have hl : (List.range nq).map
            (fun q => (⟨chooseName (prevAt o nq m q) (o (m * nq + q)), [], [q]⟩ : Gate)) =
          (List.range nq).map (fun q => (⟨namesAt o nq m q, [], [q]⟩ : Gate)) :=
        map_eq_on _ _ _ (fun q hq => by rw [hnames q (List.mem_range.mp hq)])
      rw [hl]
      rfl

/-- Closed form of generate. -/
lemma generate_closed (nrow ncol nlayer : ℕ) (o : ℕ → ℕ) :
    generate nrow ncol nlayer o =
      (List.range nlayer).map (layerAt o (nrow * ncol) (pairsOf nrow ncol)) := by
  unfold generate
  rw [generate_fold]

lemma chooseName_avail_pos (prev : Option String) :
    0 < (one_qubit_gate_names.filter (fun n => decide (some n ≠ prev))).length := by
  by_cases h : prev = some "sqrtX"
  · subst h
    decide
  · have hmem : "sqrtX" ∈ one_qubit_gate_names.filter (fun n => decide (some n ≠ prev)) := by
      rw [List.mem_filter]
      refine ⟨by simp [one_qubit_gate_names], ?_⟩
      simp only [decide_eq_true_eq]
      intro hc
      exact h hc.symm
    exact List.length_pos.mpr (List.ne_nil_of_mem hmem)

lemma chooseName_mem_avail (prev : Option String) (r : ℕ) :
    chooseName prev r ∈ one_qubit_gate_names.filter (fun n => decide (some n ≠ prev)) := by
  unfold chooseName
  have hpos := chooseName_avail_pos prev
  have hlt : r % (one_qubit_gate_names.filter (fun n => decide (some n ≠ prev))).length <
      (one_qubit_gate_names.filter (fun n => decide (some n ≠ prev))).length :=
    Nat.mod_lt _ hpos
  rw [List.getD_eq_getElem _ _ hlt]
  exact List.getElem_mem hlt

lemma chooseName_mem_pool (prev : Option String) (r : ℕ) :
    chooseName prev r ∈ one_qubit_gate_names :=
  (List.mem_filter.mp (chooseName_mem_avail prev r)).1

lemma chooseName_ne_prev (s : String) (r : ℕ) : chooseName (some s) r ≠ s := by
  have h := (List.mem_filter.mp (chooseName_mem_avail (some s) r)).2
  simp only [decide_eq_true_eq] at h
  intro hc
  exact h (by rw [hc])

lemma namesAt_consecutive_ne (o : ℕ → ℕ) (nq i q : ℕ) :
    namesAt o nq (i + 1) q ≠ namesAt o nq i q :=
  chooseName_ne_prev (namesAt o nq i q) (o ((i + 1) * nq + q))

lemma namesAt_mem_pool (o : ℕ → ℕ) (nq i q : ℕ) :
    namesAt o nq i q ∈ one_qubit_gate_names := by
  cases i <;> exact chooseName_mem_pool _ _

/-! ## Concrete runtime operator tensors

Instantiation of the builder with the gate-factor tensors of the pipeline.
The auxiliary gate bond of a two-site factor (dimension at most 4, the SVD
rank of the 4×4 two-site operator) sits on the leg facing the partner site;
all other virtual legs have dimension 1; numerical entries are abstracted. -/

/-- First horizontal gate factor: gate bond on the east leg. -/
def hFacA : OpT := ⟨1, 4, 1, 1, fun _ => 1⟩

/-- Second horizontal gate factor: gate bond on the west leg. -/
def hFacB : OpT := ⟨1, 1, 1, 4, fun _ => 1⟩

/-- First vertical gate factor: gate bond on the south leg. -/
def vFacA : OpT := ⟨1, 1, 4, 1, fun _ => 1⟩

/-- Second vertical gate factor: gate bond on the north leg. -/
def vFacB : OpT := ⟨4, 1, 1, 1, fun _ => 1⟩

/-- Modelled from the spec: sites.contract_z(one_site, f) at operator level
(koala.peps.sites, not under src/): one_site has unit virtual legs, so the
virtual dimensions of f are unchanged and entries combine pointwise. -/
def contract_one_site (f : OpT) : OpT := ⟨f.dn, f.de, f.ds, f.dw, fun n => f.dat n * 1⟩

/-- The operator maps fed by main to run_peps. -/
def tfi_operators (R C : ℕ) : OpMap × OpMap :=
  build_tfi_trottered_step_operators (hFacA, hFacB) (vFacA, vFacB) contract_one_site R C

/-- Constant grid used by witnesses. -/
def gW : GridState := fun _ => ⟨1, 1, 1, 1, fun _ => 0⟩

/-! ## Claims -/

/-- C6: the edge enumeration yields the horizontal edges ((i,j),(i,j+1)) for
i < R, j < C-1 and then the vertical edges ((i,j),(i+1,j)) for i < R-1, j < C,
in row-major order; the built operator maps are keyed by exactly those edges in
exactly that order, and one Trotter step issues the bond updates for every
horizontal edge in that order (horizontal factor map, horizontal bond
reduction) and then every vertical edge in that order. -/
theorem edge_enumeration_and_step_order (R C k : ℕ) (h1 : 1 ≤ R) (h2 : 1 ≤ C) :
    horizontal_links R C =
      (List.range R).flatMap
        (fun i => (List.range (C - 1)).map (fun j => (((i, j) : Coord), ((i, j + 1) : Coord)))) ∧
    vertical_links R C =
      (List.range (R - 1)).flatMap
        (fun i => (List.range C).map (fun j => (((i, j) : Coord), ((i + 1, j) : Coord)))) ∧
    (tfi_operators R C).1.map Prod.fst = horizontal_links R C ∧
    (tfi_operators R C).2.map Prod.fst = vertical_links R C ∧
    ∀ g : GridState,
      (apply_trottered_step_operators g (tfi_operators R C).1
        (tfi_operators R C).2 k).2 =
      (horizontal_links R C).flatMap (fun e => hUpdEvs e.1 e.2 k) ++
      (vertical_links R C).flatMap (fun e => vUpdEvs e.1 e.2 k) := by
  obtain ⟨hent, -⟩ := build_tfi_h_closed (hFacA, hFacB) contract_one_site R C
  have hkeys : (tfi_operators R C).1.map Prod.fst = horizontal_links R C := by
    show (build_tfi_h (hFacA, hFacB) contract_one_site R C).1.map Prod.fst =
      horizontal_links R C
    rw [hent, List.map_map, horizontal_links]
    rfl
  have hvkeys : (tfi_operators R C).2.map Prod.fst = vertical_links R C := by
    show (build_tfi_v (vFacA, vFacB) R C).map Prod.fst = vertical_links R C
    rw [build_tfi_v, List.map_map, vertical_links]
    rfl
  refine ⟨?_, ?_, hkeys, hvkeys, fun g => ?_⟩
  · simp only [horizontal_links, ndindex, List.map_flatMap, List.map_map]
    rfl
  · simp only [vertical_links, ndindex, List.map_flatMap, List.map_map]
    rfl
  · rw [apply_trottered_step_operators_snd]
    show step_trace (build_tfi_h (hFacA, hFacB) contract_one_site R C).1
      (build_tfi_v (vFacA, vFacB) R C) k = _
    rw [step_trace, hent, build_tfi_v, horizontal_links, vertical_links,
      List.flatMap_map, List.flatMap_map, List.flatMap_map, List.flatMap_map]

/-- Witness for C6 at R = 2, C = 2, k = 1. -/
theorem edge_enumeration_and_step_order_w :
    (tfi_operators 2 2).1.map Prod.fst = horizontal_links 2 2 ∧
    (apply_trottered_step_operators gW (tfi_operators 2 2).1
        (tfi_operators 2 2).2 1).2 =
      (horizontal_links 2 2).flatMap (fun e => hUpdEvs e.1 e.2 1) ++
      (vertical_links 2 2).flatMap (fun e => vUpdEvs e.1 e.2 1) :=
  ⟨(edge_enumeration_and_step_order 2 2 1 (by decide) (by decide)).2.2.1,
   (edge_enumeration_and_step_order 2 2 1 (by decide) (by decide)).2.2.2.2 gW⟩

/-- C7: with steps ≥ 1 and normfreq ≥ 1 the run trace is the creation event
followed by the per-step sweep blocks, with one normalization exactly after
each step whose 1-based index is divisible by normfreq — and nowhere else,
since a sweep block never contains a normalization. -/
theorem normalization_schedule (hops vops : OpMap) (R C steps nf : ℕ) (bk : String)
    (th : ℚ) (k : ℕ) (rs : Bool) (w : Coord → ℕ → ℚ)
    (h1 : 1 ≤ steps) (h2 : 1 ≤ nf) :
    (run_peps hops vops R C steps nf bk th k rs w).2 =
      Ev.initRandom R C k ::
        (List.range steps).flatMap
          (fun i => step_trace hops vops k ++
            if nf ∣ (i + 1) then [Ev.normalize] else []) ∧
    ∀ e ∈ step_trace hops vops k, e ≠ Ev.normalize := by
  constructor
  · rw [run_peps_trace]
    have hfn : (fun i => step_trace hops vops k ++
          if (i + 1) % nf = 0 then [Ev.normalize] else []) =
        (fun i => step_trace hops vops k ++
          if nf ∣ (i + 1) then [Ev.normalize] else []) := by
      funext i
      have hiff : ((i + 1) % nf = 0) ↔ (nf ∣ (i + 1)) := Nat.dvd_iff_mod_eq_zero.symm
      refine congrArg (fun l => step_trace hops vops k ++ l) ?_
      exact if_congr hiff rfl rfl
    rw [hfn]
  · intro e he
    exact (step_trace_shape hops vops k e he).1

/-- Witness for C7 at steps = 2, normfreq = 1 with empty operator maps. -/
theorem normalization_schedule_w :
    (run_peps [] [] 1 1 2 1 "numpy" 0 1 false (fun _ _ => 0)).2 =
      Ev.initRandom 1 1 1 ::
        (List.range 2).flatMap
          (fun i => step_trace [] [] 1 ++
            if 1 ∣ (i + 1) then [Ev.normalize] else []) ∧
    ∀ e ∈ step_trace [] [] 1, e ≠ Ev.normalize :=
  normalization_schedule [] [] 1 1 2 1 "numpy" 0 1 false (fun _ _ => 0)
    (by decide) (by decide)

/-- C8: with steps = 0 run_peps returns exactly the freshly created random
Grid State — the identical object, so byte-for-byte equal — and the trace
holds only the creation event: no site tensor is contracted, reduced or
normalized. -/
theorem zero_steps_returns_initial_state (hops vops : OpMap) (R C nf : ℕ)
    (bk : String) (th : ℚ) (k : ℕ) (rs : Bool) (w : Coord → ℕ → ℚ) :
    run_peps hops vops R C 0 nf bk th k rs w =
      (peps_random R C k w, [Ev.initRandom R C k]) := rfl

/-- C5 (amended): run_peps performs no configuration validation: for every
parameter assignment — valid or not — the first issued operation is the
backend grid creation and no configuration-error report is ever produced. -/
theorem no_config_validation (hops vops : OpMap) (R C steps nf : ℕ) (bk : String)
    (th : ℚ) (k : ℕ) (rs : Bool) (w : Coord → ℕ → ℚ) (h2 : 1 ≤ nf) :
    (run_peps hops vops R C steps nf bk th k rs w).2.head? =
      some (Ev.initRandom R C k) ∧
    ∀ e ∈ (run_peps hops vops R C steps nf bk th k rs w).2,
      isConfigError e = false := by
  constructor
  · rw [run_peps_trace]
    rfl
  · intro e he
    rw [run_peps_trace] at he
    rcases List.mem_cons.mp he with h | h
    · subst h
      rfl
    · rcases List.mem_flatMap.mp h with ⟨i, -, hi⟩
      rcases List.mem_append.mp hi with h3 | h3
      · exact (step_trace_shape hops vops k e h3).2.1
      · by_cases hc : (i + 1) % nf = 0
        · rw [if_pos hc] at h3
          simp only [List.mem_singleton] at h3
          subst h3
          rfl
        · rw [if_neg hc] at h3
          simp at h3

/-- Witness for the amended C5. -/
theorem no_config_validation_w :
    (run_peps [] [] 3 3 1 1 "numpy" 0 1 false (fun _ _ => 0)).2.head? =
      some (Ev.initRandom 3 3 1) ∧
    ∀ e ∈ (run_peps [] [] 3 3 1 1 "numpy" 0 1 false (fun _ _ => 0)).2,
      isConfigError e = false :=
  no_config_validation [] [] 3 3 1 1 "numpy" 0 1 false (fun _ _ => 0) (by decide)

/-- C5 counterexample: with the invalid configuration maxrank = 0 (max-rank
< 1) the entry point does not fail fast: its first issued operation is already
a backend call (the grid creation with the invalid rank) and no error naming
the invalid field is ever reported. -/
theorem no_config_validation_cex :
    (run_peps [] [] 2 2 1 1 "numpy" 0 0 false (fun _ _ => 0)).2.head? =
      some (Ev.initRandom 2 2 0) ∧
    ∀ e ∈ (run_peps [] [] 2 2 1 1 "numpy" 0 0 false (fun _ _ => 0)).2,
      isConfigError e = false := by decide

/-- Trace of a 2×2, one-step run as a function of the randomized_svd flag. -/
def c1run (rs : Bool) : List Ev :=
  (run_peps (tfi_operators 2 2).1 (tfi_operators 2 2).2 2 2 1 10 "numpy" 0 2 rs
    (fun _ _ => 0)).2

/-- C1: the truncation mode is not selectable.  With randomized_svd = False
(the CLI default, documented as turning randomized SVD off) the run still
performs every bond reduction with ImplicitRandomizedSVD — no reduction uses a
deterministic exact SVD — and the flag has no effect on the issued operations
at all. -/
theorem svd_mode_not_configurable :
    (c1run false).any isReduceEv = true ∧
    (∀ e ∈ c1run false, usesExactSvd e = false) ∧
    ∀ rs : Bool, c1run rs = c1run false := by decide

/-- C4: one bond-update invocation (horizontal or vertical) truncates only the
shared lattice bond — afterwards both endpoint dimensions of that bond are
≤ maxrank — while every other site tensor of the grid is returned unchanged
(dimensions and values) and the other bond dimensions of the two updated sites
are unchanged.  The gate-factor hypotheses state that all factor virtual legs
except the one on the shared bond have dimension 1, as the built factors do. -/
theorem bond_update_frame (g : GridState) (a b c : Coord) (fa fb va vb : OpT) (k : ℕ)
    (hab : a ≠ b) (hca : c ≠ a) (hcb : c ≠ b)
    (hfa1 : fa.dn = 1) (hfa2 : fa.ds = 1) (hfa3 : fa.dw = 1)
    (hfb1 : fb.dn = 1) (hfb2 : fb.de = 1) (hfb3 : fb.ds = 1)
    (hva1 : va.dn = 1) (hva2 : va.de = 1) (hva3 : va.dw = 1)
    (hvb1 : vb.de = 1) (hvb2 : vb.ds = 1) (hvb3 : vb.dw = 1) :
    (bondUpdateH g a b fa fb k c = g c ∧ bondUpdateV g a b va vb k c = g c) ∧
    ((bondUpdateH g a b fa fb k a).de ≤ k ∧ (bondUpdateH g a b fa fb k b).dw ≤ k ∧
     (bondUpdateH g a b fa fb k a).dn = (g a).dn ∧
     (bondUpdateH g a b fa fb k a).ds = (g a).ds ∧
     (bondUpdateH g a b fa fb k a).dw = (g a).dw ∧
     (bondUpdateH g a b fa fb k b).dn = (g b).dn ∧
     (bondUpdateH g a b fa fb k b).de = (g b).de ∧
     (bondUpdateH g a b fa fb k b).ds = (g b).ds) ∧
    ((bondUpdateV g a b va vb k a).ds ≤ k ∧ (bondUpdateV g a b va vb k b).dn ≤ k ∧
     (bondUpdateV g a b va vb k a).dn = (g a).dn ∧
     (bondUpdateV g a b va vb k a).de = (g a).de ∧
     (bondUpdateV g a b va vb k a).dw = (g a).dw ∧
     (bondUpdateV g a b va vb k b).de = (g b).de ∧
     (bondUpdateV g a b va vb k b).ds = (g b).ds ∧
     (bondUpdateV g a b va vb k b).dw = (g b).dw) := by
  have hba : b ≠ a := fun h => hab h.symm
  have hac : a ≠ c := fun h => hca h.symm
  have hbc : b ≠ c := fun h => hcb h.symm
  refine ⟨⟨?_, ?_⟩, ⟨?_, ?_, ?_, ?_, ?_, ?_, ?_, ?_⟩, ⟨?_, ?_, ?_, ?_, ?_, ?_, ?_, ?_⟩⟩ <;>
    simp [bondUpdateH, bondUpdateV, updateGrid, contract_z, reduce_y, reduce_x,
      hab, hba, hca, hcb, hac, hbc, hfa1, hfa2, hfa3, hfb1, hfb2, hfb3,
      hva1, hva2, hva3, hvb1, hvb2, hvb3] <;>
    omega

/-- Witness for C4 on the edge ((0,0),(0,1)) of the constant grid with the
built factor tensors and maxrank 1. -/
theorem bond_update_frame_w :
    bondUpdateH gW (0, 0) (0, 1) hFacA hFacB 1 (5, 5) = gW (5, 5) ∧
    (bondUpdateH gW (0, 0) (0, 1) hFacA hFacB 1 (0, 0)).de ≤ 1 ∧
    (bondUpdateV gW (0, 0) (1, 0) vFacA vFacB 1 (1, 0)).dn ≤ 1 :=
  ⟨(bond_update_frame gW (0, 0) (0, 1) (5, 5) hFacA hFacB vFacA vFacB 1
      (by decide) (by decide) (by decide)
      rfl rfl rfl rfl rfl rfl rfl rfl rfl rfl rfl rfl).1.1,
   (bond_update_frame gW (0, 0) (0, 1) (5, 5) hFacA hFacB vFacA vFacB 1
      (by decide) (by decide) (by decide)
      rfl rfl rfl rfl rfl rfl rfl rfl rfl rfl rfl rfl).2.1.1,
   (bond_update_frame gW (0, 0) (1, 0) (5, 5) hFacA hFacB vFacA vFacB 1
      (by decide) (by decide) (by decide)
      rfl rfl rfl rfl rfl rfl rfl rfl rfl rfl rfl rfl).2.2.2.1⟩

/-- C3: for C ≥ 2 the builder's horizontal pass visits exactly the R×C grid
coordinates and the single-site (field) operator is contracted into exactly
one stored factor per grid coordinate (none skipped, none twice; coordinates
outside the grid receive none); for C = 1 the horizontal edge list is empty
and no coordinate receives the field term. -/
theorem onesite_coverage (R C : ℕ) :
    (2 ≤ C →
      (∀ c : Coord, c ∈ (hFlagOps R C).2 ↔ c.1 < R ∧ c.2 < C) ∧
      (∀ c : Coord, c.1 < R → c.2 < C → onesite_count (hFlagOps R C).1 c = 1) ∧
      (∀ c : Coord, ¬ (c.1 < R ∧ c.2 < C) → onesite_count (hFlagOps R C).1 c = 0)) ∧
    (C = 1 →
      horizontal_links R C = [] ∧ (hFlagOps R C).1 = [] ∧ (hFlagOps R C).2 = [] ∧
      ∀ c : Coord, onesite_count (hFlagOps R C).1 c = 0) := by
  constructor
  · intro hC
    obtain ⟨-, hmem⟩ :=
      build_tfi_h_closed ((false : Bool), (false : Bool)) (fun _ => true) R C
    refine ⟨fun c => ?_, fun c h1 h2 => ?_, fun c h => ?_⟩
    · rw [show (hFlagOps R C).2 =
          (build_tfi_h ((false : Bool), (false : Bool)) (fun _ => true) R C).2 from rfl,
        hmem]
      omega
    · rw [onesite_count_closed]
      split_ifs <;> omega
    · rw [onesite_count_closed]
      split_ifs <;> omega
  · intro hC
    subst hC
    have hnd : ndindex R (1 - 1) = [] := ndindex_zero R
    refine ⟨?_, ?_, ?_, fun c => ?_⟩
    · rw [horizontal_links, hnd]
      rfl
    · rw [show (hFlagOps R 1).1 =
          (build_tfi_h ((false : Bool), (false : Bool)) (fun _ => true) R 1).1 from rfl,
        build_tfi_h, hnd]
      rfl
    · rw [show (hFlagOps R 1).2 =
          (build_tfi_h ((false : Bool), (false : Bool)) (fun _ => true) R 1).2 from rfl,
        build_tfi_h, hnd]
      rfl
    · rw [onesite_count_closed]
      split_ifs <;> omega

/-- Witness for C3: at R = 2, C = 2 the interior coordinate (1,1) is visited
and counted once; at C = 1 the horizontal factor map is empty. -/
theorem onesite_coverage_w :
    ((1, 1) ∈ (hFlagOps 2 2).2 ↔ (1 : ℕ) < 2 ∧ (1 : ℕ) < 2) ∧
    onesite_count (hFlagOps 2 2).1 (1, 1) = 1 ∧
    (hFlagOps 3 1).1 = [] :=
  ⟨((onesite_coverage 2 2).1 (by decide)).1 (1, 1),
   ((onesite_coverage 2 2).1 (by decide)).2.1 (1, 1) (by decide) (by decide),
   ((onesite_coverage 3 1).2 rfl).2.1⟩

/-- C9: in the built horizontal operator map, the factor pair of each row's
leftmost edge ((i,0),(i,1)) carries the single-site operator in both factors,
while every other horizontal edge ((i,j),(i,j+1)), j ≥ 1, carries it only in
its second (right-site) factor; every vertical pair is stored as the
unmodified vertical two-site factorization. -/
theorem onesite_placement (R C : ℕ) (h1 : 1 ≤ R) (h2 : 2 ≤ C) :
    (hFlagOps R C).1 =
      (ndindex R (C - 1)).map
        (fun p => (((p.1, p.2), (p.1, p.2 + 1)),
          ((if p.2 = 0 then true else false), true))) ∧
    vFlagOps R C =
      (ndindex (R - 1) C).map
        (fun p => (((p.1, p.2), (p.1 + 1, p.2)), (false, false))) := by
  obtain ⟨hent, -⟩ :=
    build_tfi_h_closed ((false : Bool), (false : Bool)) (fun _ => true) R C
  exact ⟨hent, rfl⟩

/-- Witness for C9 at R = 2, C = 3. -/
theorem onesite_placement_w :
    (hFlagOps 2 3).1 =
      (ndindex 2 2).map
        (fun p => (((p.1, p.2), (p.1, p.2 + 1)),
          ((if p.2 = 0 then true else false), true))) :=
  (onesite_placement 2 3 (by decide) (by decide)).1

/-- C2: the factorization round trip fails.  The source squares the singular
values (the line s = s ** 2) instead of absorbing their square root, so the
contraction of the two stored factors over the gate bond equals U·s⁴·V rather
than U·s·V.  Concretely at tau*J = log 2: (identity, diag(2,1/2,1/2,2),
identity) is a valid einsvd factorization of the two-site operator — it
reconstructs it exactly — yet the stored factors contract to
diag(16, 1/16, 1/16, 16) ≠ diag(2, 1/2, 1/2, 2). -/
theorem pair_site_operator_roundtrip_bug :
    einsvdRecon idMat4 svalsZZ2 idMat4 = exp_pauli_zz 2 ∧
    contract_gate_bond (horizontal_pair_site_operator idMat4 svalsZZ2 idMat4).1
        (horizontal_pair_site_operator idMat4 svalsZZ2 idMat4).2 ≠ exp_pauli_zz 2 := by
  constructor
  · funext p q
    fin_cases p <;> fin_cases q <;>
      simp [einsvdRecon, idMat4, svalsZZ2, exp_pauli_zz, Fin.sum_univ_four]
  · intro h
    have h2 := congrFun (congrFun h 0) 0
    simp [contract_gate_bond, horizontal_pair_site_operator, idMat4, svalsZZ2,
      exp_pauli_zz, Fin.sum_univ_four] at h2
    norm_num at h2

/-- C10: generate produces exactly nlayer layers; layer i consists of one
single-qubit gate per qubit, for qubits 0..n-1 in increasing order, each name
drawn from the three-name pool, followed by ISWAP gates on the pair group
selected by [0,1,2,3,2,3,0,1][i mod 8]; and no qubit is assigned the same
single-qubit name in two consecutive layers.  The numpy randomness is an
arbitrary oracle o. -/
theorem generate_structure (nrow ncol nlayer : ℕ) (o : ℕ → ℕ) :
    (generate nrow ncol nlayer o).length = nlayer ∧
    (∀ i, i < nlayer →
      (generate nrow ncol nlayer o).getD i [] =
        (List.range (nrow * ncol)).map
          (fun q => (⟨namesAt o (nrow * ncol) i q, [], [q]⟩ : Gate)) ++
        (selectPairs (pairsOf nrow ncol) (layer_pattern.getD (i % 8) 0)).map
          (fun p => (⟨"ISWAP", [], [p.1, p.2]⟩ : Gate))) ∧
    (∀ i q, namesAt o (nrow * ncol) i q ∈ one_qubit_gate_names) ∧
    (∀ i q, namesAt o (nrow * ncol) (i + 1) q ≠ namesAt o (nrow * ncol) i q) := by
  refine ⟨?_, fun i hi => ?_, fun i q => namesAt_mem_pool o _ i q,
    fun i q => namesAt_consecutive_ne o _ i q⟩
  · rw [generate_closed]
    simp
  · rw [generate_closed]
    have hlen : i < ((List.range nlayer).map
        (layerAt o (nrow * ncol) (pairsOf nrow ncol))).length := by
      simpa using hi
    rw [List.getD_eq_getElem _ _ hlen]
    simp [layerAt]

/-- Witness for C10 at nrow = ncol = nlayer = 2 with the zero oracle. -/
theorem generate_structure_w :
    (generate 2 2 2 (fun _ => 0)).length = 2 ∧
    (generate 2 2 2 (fun _ => 0)).getD 0 [] =
      (List.range 4).map (fun q => (⟨namesAt (fun _ => 0) 4 0 q, [], [q]⟩ : Gate)) ++
      (selectPairs (pairsOf 2 2) (layer_pattern.getD 0 0)).map
        (fun p => (⟨"ISWAP", [], [p.1, p.2]⟩ : Gate)) ∧
    namesAt (fun _ => 0) 4 1 0 ≠ namesAt (fun _ => 0) 4 0 0 :=
  ⟨(generate_structure 2 2 2 (fun _ => 0)).1,
   (generate_structure 2 2 2 (fun _ => 0)).2.1 0 (by decide),
   (generate_structure 2 2 2 (fun _ => 0)).2.2.2 0 0⟩
